import Mathlib

/-!
Shallow embedding of `src/main.rs` (crate `preprocessor`): a single-file
source-to-source transformer.  Source text is modelled as `List Char`;
the per-stage functions `inline_includes`, `reorder_elements` and
`handle_macros` are translated directly from the Rust, including the
behaviour of `str::lines()`, the three regular expressions (specialised
matchers with the leftmost / greedy semantics of the `regex` crate), and
petgraph's DFS-based `toposort`.
-/

namespace Preprocessor

/-! ## Lines: model of Rust `str::lines()` -/

/-- Character class `\s` of the `regex` crate, restricted to its ASCII part:
space, tab, newline, carriage return, vertical tab, form feed. -/
def isSpaceChar (c : Char) : Bool :=
  c == ' ' || c == '\t' || c == '\n' || c == '\r' || c == '\x0b' || c == '\x0c'

/-- Character class `\w` of the `regex` crate, restricted to its ASCII part. -/
def isWordChar (c : Char) : Bool :=
  c.isAlphanum || c == '_'

/-- Strip one trailing `'\r'`, as `str::lines()` does on a line that was
terminated by `"\r\n"`. -/
def stripCR (l : List Char) : List Char :=
  match l.getLast? with
  | some '\r' => l.dropLast
  | _ => l

/-- Accumulator worker for `rustLines`: splits at `'\n'`, stripping a `'\r'`
that immediately precedes the `'\n'`; a final segment with no terminator is
kept verbatim, and a trailing `'\n'` produces no extra empty line. -/
def rustLinesAux : List Char → List Char → List (List Char)
  | [], acc => if acc.isEmpty then [] else [acc]
  | c :: rest, acc =>
    if c = '\n' then stripCR acc :: rustLinesAux rest []
    else rustLinesAux rest (acc ++ [c])

/-- Model of Rust `str::lines()`. -/
def rustLines (cs : List Char) : List (List Char) :=
  rustLinesAux cs []

/-- Join lines back, one `'\n'` after each line: this is what every stage's
`push_str(line); push('\n')` loop produces for pass-through lines. -/
def unlines (ls : List (List Char)) : List Char :=
  (ls.map (fun l => l ++ ['\n'])).flatten

/-- A line list on which `rustLines ∘ unlines` is the identity: no interior
newline, and no trailing carriage return (which `lines()` would strip). -/
def CleanLines (ls : List (List Char)) : Prop :=
  ∀ l ∈ ls, ('\n' ∉ l) ∧ l.getLast? ≠ some '\r'

/-- Match a literal at the head of a char list, returning the remainder. -/
def dropLit : List Char → List Char → Option (List Char)
  | [], s => some s
  | _ :: _, [] => none
  | p :: ps, c :: cs => if c = p then dropLit ps cs else none

/-! ## The include regex `#include\s+"(.+\.h)"` -/

/-- Does position `j` of `r` split the tail of the include pattern as
`(.+\.h)"`?  The capture `r.take j` must end in `".h"` with at least one
(non-newline) character before it, and be followed by a closing quote. -/
def capOk (r : List Char) (j : Nat) : Bool :=
  (match (r.take j).reverse with
   | 'h' :: '.' :: _ :: _ => true
   | _ => false)
  && (r.drop j).head? == some '"'
  && (r.take j).all (fun c => c != '\n')

/-- Greedy capture for `(.+\.h)"`: try the longest capture first, as the
greedy `.+` of the `regex` crate does. -/
def findCap : Nat → List Char → Option (List Char)
  | 0, _ => none
  | j + 1, r => if capOk r (j + 1) then some (r.take (j + 1)) else findCap j r

/-- Try the full include pattern anchored at the head of `s`. -/
def includeMatchAt (s : List Char) : Option (List Char) :=
  match dropLit "#include".toList s with
  | none => none
  | some r1 =>
    if (r1.takeWhile isSpaceChar).isEmpty then none
    else
      match r1.dropWhile isSpaceChar with
      | '"' :: r2 => findCap r2.length r2
      | _ => none

/-- Leftmost match of `#include\s+"(.+\.h)"` in a line, returning capture
group 1 (`captures.get(1)` in the Rust). -/
def includeCapture : List Char → Option (List Char)
  | [] => none
  | c :: cs =>
    match includeMatchAt (c :: cs) with
    | some cap => some cap
    | none => includeCapture cs

/-! ## The macro regex `#define\s+(\w+)\s*(.*)` -/

/-- Try the full macro pattern anchored at the head of `s`, returning
captures 1 (name) and 2 (value).  The greedy `\s+` / `(\w+)` / `\s*` take
maximal runs; `(.*)` takes the whole remainder of the line. -/
def macroMatchAt (s : List Char) : Option (List Char × List Char) :=
  match dropLit "#define".toList s with
  | none => none
  | some r1 =>
    if (r1.takeWhile isSpaceChar).isEmpty then none
    else
      let r2 := r1.dropWhile isSpaceChar
      let name := r2.takeWhile isWordChar
      if name.isEmpty then none
      else
        let r3 := r2.dropWhile isWordChar
        some (name, r3.dropWhile isSpaceChar)

/-- Leftmost match of `#define\s+(\w+)\s*(.*)` in a line. -/
def macroCapture : List Char → Option (List Char × List Char)
  | [] => none
  | c :: cs =>
    match macroMatchAt (c :: cs) with
    | some nv => some nv
    | none => macroCapture cs

/-! ## The function regex `(\w+\s+\w+\s*\(.*\)\s*\{)` (used as a match test) -/

/-- Scan for the `\)\s*\{` tail: some `')'` followed by optional whitespace
and `'{'`; the dot of `.*` does not cross a newline. -/
def closeScan : List Char → Bool
  | [] => false
  | c :: rest =>
    if c == ')' && ((rest.dropWhile isSpaceChar).head? == some '{') then true
    else if c == '\n' then false
    else closeScan rest

/-- Try the function pattern anchored at the head of `s`. -/
def funcMatchAt (s : List Char) : Bool :=
  if (s.takeWhile isWordChar).isEmpty then false
  else
    let r1 := s.dropWhile isWordChar
    if (r1.takeWhile isSpaceChar).isEmpty then false
    else
      let r2 := r1.dropWhile isSpaceChar
      if (r2.takeWhile isWordChar).isEmpty then false
      else
        match (r2.dropWhile isWordChar).dropWhile isSpaceChar with
        | '(' :: r3 => closeScan r3
        | _ => false

/-- Unanchored match test of the function-definition regex on a line. -/
def isFunctionLine : List Char → Bool
  | [] => false
  | c :: cs => funcMatchAt (c :: cs) || isFunctionLine cs

/-! ## `handle_macros` -/

/-- Per-line emission of `handle_macros`: a valueless macro becomes a
`#[cfg(<name>)]` marker, a valued one a `const <name>: &str = "<value>";`
declaration, and non-matching lines pass through with their `'\n'`. -/
def macroLine (line : List Char) : List Char :=
  match macroCapture line with
  | some (name, value) =>
    if value.isEmpty then
      "#[cfg(".toList ++ name ++ ")]\n".toList
    else
      "const ".toList ++ name ++ ": &str = \"".toList ++ value ++ "\";\n".toList
  | none => line ++ ['\n']

/-- Model of `handle_macros`: the per-line loop, accumulating with `push_str`. -/
def handle_macros (code : List Char) : List Char :=
  ((rustLines code).map macroLine).flatten

/-! ## `inline_includes` -/

/-- Per-line emission of `inline_includes` against a file system `fsys`
(`fs::read_to_string` modelled as a partial map from file name to content):
a resolvable include line is replaced by the file content verbatim (no
added newline), an unresolvable one is dropped, any other line passes
through with its `'\n'`. -/
def incLine (fsys : List Char → Option (List Char)) (line : List Char) : List Char :=
  match includeCapture line with
  | some name =>
    match fsys name with
    | some content => content
    | none => []
  | none => line ++ ['\n']

/-- The warning (`eprintln!`) emitted for a line, if any: the name of an
include file that could not be read. -/
def incWarn (fsys : List Char → Option (List Char)) (line : List Char) : Option (List Char) :=
  match includeCapture line with
  | some name => match fsys name with
    | some _ => none
    | none => some name
  | none => none

/-- Model of `inline_includes`: output text together with the list of warnings
surfaced on the diagnostic stream.  Total: it runs to completion on every
input. -/
def inline_includes (fsys : List Char → Option (List Char)) (code : List Char) :
    List Char × List (List Char) :=
  (((rustLines code).map (incLine fsys)).flatten,
   (rustLines code).filterMap (incWarn fsys))

/-! ## `DependencyGraph` and petgraph's `toposort`

`DiGraph<String, ()>` in `reorder_elements` gets its nodes added in order,
so node indices are `0 .. n-1`; we model the graph as a node count plus an
edge list over `Fin n` (petgraph edges are pairs of `NodeIndex`, and
`add_edge` with an out-of-range index panics, so valid indices are an
invariant of every constructed graph). -/

structure DepGraph where
  n : Nat
  edges : List (Fin n × Fin n)

/-- Successors of `x`: petgraph's `neighbors` walks a node's outgoing edge
list, which is kept newest-first, i.e. in reverse insertion order. -/
def neighborsF (g : DepGraph) (x : Fin g.n) : List (Fin g.n) :=
  ((g.edges.filter (fun e => e.1 = x)).map Prod.snd).reverse

/-- The inner `while let Some(&nx) = dfs.stack.last()` loop of petgraph's
`toposort`: on first discovery of `nx` the not-yet-discovered successors
are pushed above it (a self-loop aborts with a cycle); on the second visit
`nx` is popped and, if newly finished, all its successors must already be
finished (else a cycle is reported) and `nx` is appended to the finish
stack.  `none` models `Err(Cycle(..))`. -/
def innerLoop (g : DepGraph) (stack : List (Fin g.n)) (disc fin : Finset (Fin g.n))
    (fs : List (Fin g.n)) : Option (Finset (Fin g.n) × Finset (Fin g.n) × List (Fin g.n)) :=
  match stack with
  | [] => some (disc, fin, fs)
  | nx :: rest =>
    if hd : nx ∈ disc then
      if nx ∈ fin then
        innerLoop g rest disc fin fs
      else if (neighborsF g nx).all (fun s => decide (s ∈ fin)) then
        innerLoop g rest disc (insert nx fin) (fs ++ [nx])
      else none
    else
      if nx ∈ neighborsF g nx then none
      else
        innerLoop g
          (((neighborsF g nx).filter (fun s => decide (s ∉ insert nx disc))).reverse
            ++ nx :: rest)
          (insert nx disc) fin fs
termination_by (g.n - disc.card, stack.length)
decreasing_by
  · apply Prod.Lex.right
    simp
  · apply Prod.Lex.right
    simp
  · apply Prod.Lex.left
    have h1 : (insert nx disc).card = disc.card + 1 := Finset.card_insert_of_not_mem hd
    have h2 : (insert nx disc).card ≤ g.n := by
      have := Finset.card_le_univ (insert nx disc)
      simpa using this
    omega

/-- The outer `for i in g.node_identifiers()` loop of petgraph's `toposort`. -/
def outerLoop (g : DepGraph) : List (Fin g.n) → Finset (Fin g.n) → Finset (Fin g.n) →
    List (Fin g.n) → Option (List (Fin g.n))
  | [], _, _, fs => some fs
  | i :: is, disc, fin, fs =>
    if i ∈ disc then outerLoop g is disc fin fs
    else
      match innerLoop g [i] disc fin fs with
      | none => none
      | some (d, f, s) => outerLoop g is d f s

/-- Model of petgraph's `algo::toposort` (DFS, reverse postorder): `finish_stack`
reversed at the end; `none` models `Err(Cycle(..))`, which
`reorder_elements` maps to the error string. -/
def toposort (g : DepGraph) : Option (List (Fin g.n)) :=
  (outerLoop g (List.finRange g.n) ∅ ∅ []).map List.reverse

/-! ## `reorder_elements` -/

/-- The extractor loop: indices of the lines on which the function regex
matches; `functions` in the Rust holds the pairs `("Function_{idx}", idx)`
in this order, and the graph nodes are added in the same order. -/
def extractIdxs (code : List Char) : List Nat :=
  ((rustLines code).enum.filter (fun p => isFunctionLine p.2)).map Prod.fst

/-- The "mock dependencies" of the builder: one edge from element `i` to
element `i+1` for every adjacent pair, a linear chain. -/
def chainGraph (n : Nat) : DepGraph where
  n := n
  edges := (List.finRange (n - 1)).map fun i =>
    (⟨i.1, by omega⟩, ⟨i.1 + 1, by omega⟩)

/-- The text block emitted for one reordered element: the marker comment
with the element's identity `Function_{idx}`, then the original line
(`code.lines().nth(idx).unwrap()`), then `'\n'`. -/
def funcBlock (code : List Char) (idx : Nat) : List Char :=
  "// Function start: Function_".toList ++ (Nat.repr idx).toList ++ ['\n']
    ++ (rustLines code).getD idx [] ++ ['\n']

/-- Model of `reorder_elements`.  `none` models the panic of
`for i in 0..functions.len() - 1` on an empty `functions` (underflow in
debug, index out of bounds in release); `Except.error` models
`Err("Cycle detected in dependencies")`; `Except.ok` the assembled text. -/
def reorder_elements (code : List Char) : Option (Except (List Char) (List Char)) :=
  let idxs := extractIdxs code
  if idxs.length = 0 then none
  else
    match toposort (chainGraph idxs.length) with
    | none => some (Except.error "Cycle detected in dependencies".toList)
    | some order =>
      some (Except.ok ((order.map fun i => funcBlock code (idxs.get i)).flatten))

/-! ## Predicates used by the verification -/

/-- The finish stack discipline of the DFS: each entry was appended only
after all of its successors were already on the stack.  (Reversed, this is
exactly "every edge source comes before its target".) -/
inductive FsOk (g : DepGraph) : List (Fin g.n) → Prop
  | nil : FsOk g []
  | snoc {l : List (Fin g.n)} {y : Fin g.n} :
      FsOk g l → (∀ s ∈ neighborsF g y, s ∈ l) → FsOk g (l ++ [y])

/-- Loop invariant of petgraph's DFS: every discovered node is finished or
still on the stack; the finished set is exactly the finish stack, which has
no duplicates and obeys `FsOk`. -/
def Inv (g : DepGraph) (stack : List (Fin g.n)) (disc fin : Finset (Fin g.n))
    (fs : List (Fin g.n)) : Prop :=
  (∀ x ∈ disc, x ∈ fin ∨ x ∈ stack) ∧ (∀ x, x ∈ fin ↔ x ∈ fs) ∧ fs.Nodup ∧ FsOk g fs

end Preprocessor

namespace Preprocessor

/-! # Theorems

## Text-level lemmas: `rustLines` is a left inverse of `unlines` on clean
line lists -/

theorem stripCR_of_clean {l : List Char} (h : l.getLast? ≠ some '\r') :
    stripCR l = l := by
  unfold stripCR
  split
  · next heq => exact absurd heq h
  · rfl

theorem rustLinesAux_append {l rest acc : List Char} (h : '\n' ∉ l) :
    rustLinesAux (l ++ '\n' :: rest) acc = stripCR (acc ++ l) :: rustLinesAux rest [] := by
  induction l generalizing acc with
  | nil => simp [rustLinesAux]
  | cons c l ih =>
    have hc : c ≠ '\n' := by intro hcn; exact h (hcn ▸ List.mem_cons_self c l)
    have hl : '\n' ∉ l := fun hm => h (List.mem_cons_of_mem c hm)
    simp only [List.cons_append, rustLinesAux, if_neg hc, List.append_eq]
    rw [ih hl, List.append_assoc, List.singleton_append]

theorem rustLines_unlines {ls : List (List Char)} (h : CleanLines ls) :
    rustLines (unlines ls) = ls := by
  induction ls with
  | nil => rfl
  | cons l rest ih =>
    have hl := h l (List.mem_cons_self l rest)
    have hrest : CleanLines rest := fun x hx => h x (List.mem_cons_of_mem l hx)
    show rustLinesAux (unlines (l :: rest)) [] = l :: rest
    have : unlines (l :: rest) = l ++ '\n' :: unlines rest := by
      simp [unlines]
    rw [this, rustLinesAux_append hl.1, List.nil_append, stripCR_of_clean hl.2]
    exact congrArg _ (ih hrest)

theorem unlines_append (a b : List (List Char)) :
    unlines (a ++ b) = unlines a ++ unlines b := by
  simp [unlines]

/-! ## DFS loop invariants (for the topological sorter) -/

theorem innerLoop_inv (g : DepGraph) :
    ∀ (stack : List (Fin g.n)) (disc fin : Finset (Fin g.n)) (fs : List (Fin g.n)),
    ∀ d f s, innerLoop g stack disc fin fs = some (d, f, s) →
    Inv g stack disc fin fs →
    Inv g [] d f s ∧ (∀ x ∈ disc, x ∈ d) ∧ (∀ x ∈ stack, x ∈ d) := by
  intro stack disc fin fs
  induction stack, disc, fin, fs using innerLoop.induct g with
  | case1 disc fin fs =>
    intro d f s heq hinv
    rw [innerLoop] at heq
    simp only [Option.some.injEq, Prod.mk.injEq] at heq
    obtain ⟨rfl, rfl, rfl⟩ := heq
    exact ⟨hinv, fun x hx => hx, fun x hx => absurd hx (List.not_mem_nil x)⟩
  | case2 disc fin fs nx rest h1 h2 ih =>
    intro d f s heq hinv
    rw [innerLoop] at heq
    simp only [dif_pos h1, if_pos h2] at heq
    obtain ⟨ha, hb, hc, hfs⟩ := hinv
    have hinv' : Inv g rest disc fin fs := by
      refine ⟨fun x hx => ?_, hb, hc, hfs⟩
      rcases ha x hx with hf | hs
      · exact Or.inl hf
      · rcases List.mem_cons.mp hs with rfl | hr
        · exact Or.inl h2
        · exact Or.inr hr
    obtain ⟨hi, hdisc, hrest⟩ := ih d f s heq hinv'
    refine ⟨hi, hdisc, fun x hx => ?_⟩
    rcases List.mem_cons.mp hx with rfl | hr
    · exact hdisc _ h1
    · exact hrest _ hr
  | case3 disc fin fs nx rest h1 h2 h3 ih =>
    intro d f s heq hinv
    rw [innerLoop] at heq
    simp only [dif_pos h1, if_neg h2, if_pos h3] at heq
    obtain ⟨ha, hb, hc, hfs⟩ := hinv
    have hsucc : ∀ t ∈ neighborsF g nx, t ∈ fin := by
      intro t ht
      exact of_decide_eq_true (List.all_eq_true.mp h3 t ht)
    have hnxfs : nx ∉ fs := fun hmem => h2 ((hb nx).mpr hmem)
    have hinv' : Inv g rest disc (insert nx fin) (fs ++ [nx]) := by
      refine ⟨fun x hx => ?_, fun x => ?_, ?_, ?_⟩
      · rcases ha x hx with hf | hs
        · exact Or.inl (Finset.mem_insert_of_mem hf)
        · rcases List.mem_cons.mp hs with rfl | hr
          · exact Or.inl (Finset.mem_insert_self x fin)
          · exact Or.inr hr
      · constructor
        · intro hx
          rcases Finset.mem_insert.mp hx with rfl | hxf
          · simp
          · simp [List.mem_append, (hb x).mp hxf]
        · intro hx
          rcases List.mem_append.mp hx with hxf | hxn
          · exact Finset.mem_insert_of_mem ((hb x).mpr hxf)
          · simp only [List.mem_singleton] at hxn
            exact hxn ▸ Finset.mem_insert_self _ _
      · rw [List.nodup_append]
        exact ⟨hc, List.nodup_singleton _, by
          intro a haf han
          simp only [List.mem_singleton] at han
          exact hnxfs (han ▸ haf)⟩
      · exact FsOk.snoc hfs (fun t ht => (hb t).mp (hsucc t ht))
    obtain ⟨hi, hdisc, hrest⟩ := ih d f s heq hinv'
    refine ⟨hi, hdisc, fun x hx => ?_⟩
    rcases List.mem_cons.mp hx with rfl | hr
    · exact hdisc _ h1
    · exact hrest _ hr
  | case4 disc fin fs nx rest h1 h2 h3 =>
    intro d f s heq hinv
    rw [innerLoop] at heq
    simp only [dif_pos h1, if_neg h2, if_neg h3] at heq
    exact absurd heq (by simp)
  | case5 disc fin fs nx rest h1 h2 =>
    intro d f s heq hinv
    rw [innerLoop] at heq
    simp only [dif_neg h1, if_pos h2] at heq
    exact absurd heq (by simp)
  | case6 disc fin fs nx rest h1 h2 ih =>
    intro d f s heq hinv
    rw [innerLoop] at heq
    simp only [dif_neg h1, if_neg h2] at heq
    obtain ⟨ha, hb, hc, hfs⟩ := hinv
    have hinv' : Inv g
        (((neighborsF g nx).filter (fun t => decide (t ∉ insert nx disc))).reverse ++ nx :: rest)
        (insert nx disc) fin fs := by
      refine ⟨fun x hx => ?_, hb, hc, hfs⟩
      rcases Finset.mem_insert.mp hx with rfl | hxd
      · exact Or.inr (List.mem_append_right _ (List.mem_cons_self _ _))
      · rcases ha x hxd with hf | hs
        · exact Or.inl hf
        · exact Or.inr (List.mem_append_right _ hs)
    obtain ⟨hi, hdisc, hstk⟩ := ih d f s heq hinv'
    exact ⟨hi, fun x hx => hdisc _ (Finset.mem_insert_of_mem hx),
      fun x hx => hstk _ (List.mem_append_right _ hx)⟩

/-! ## The chain graph built by `reorder_elements` -/

theorem mem_take_finRange {n k : Nat} (x : Fin n) :
    x ∈ (List.finRange n).take k ↔ x.1 < k := by
  rw [List.mem_take_iff_getElem]
  constructor
  · rintro ⟨i, hm, hx⟩
    have hxi : x.1 = i := by rw [← hx]; simp [List.getElem_finRange]
    rw [lt_min_iff] at hm
    omega
  · intro hx
    refine ⟨x.1, ?_, ?_⟩
    · rw [lt_min_iff]
      simp [List.length_finRange]
      omega
    · apply Fin.ext
      simp [List.getElem_finRange]

theorem mem_drop_finRange {n j : Nat} (x : Fin n) :
    x ∈ (List.finRange n).drop j ↔ j ≤ x.1 := by
  rw [List.mem_drop_iff_getElem]
  constructor
  · rintro ⟨i, hm, hx⟩
    have hxi : x.1 = j + i := by rw [← hx]; simp [List.getElem_finRange]
    omega
  · intro hx
    have hxn : x.1 < n := x.2
    refine ⟨x.1 - j, ?_, ?_⟩
    · simp [List.length_finRange]; omega
    · apply Fin.ext
      simp [List.getElem_finRange]
      omega

theorem filter_eq_singleton_of_nodup {m : Nat} {l : List (Fin m)} (hnd : l.Nodup)
    (a : Fin m) (ha : a ∈ l) : l.filter (fun i => decide (i = a)) = [a] := by
  induction l with
  | nil => exact absurd ha (List.not_mem_nil a)
  | cons b l ih =>
    rcases List.mem_cons.mp ha with rfl | hal
    · have hbl : a ∉ l := (List.nodup_cons.mp hnd).1
      rw [List.filter_cons_of_pos (by simp)]
      rw [List.filter_eq_nil_iff.mpr (fun i hi => by simp; exact fun he => hbl (he ▸ hi))]
    · have hba : b ≠ a := fun he => (List.nodup_cons.mp hnd).1 (he ▸ hal)
      rw [List.filter_cons_of_neg (by simp [hba])]
      exact ih (List.nodup_cons.mp hnd).2 hal

theorem neighbors_chain {n : Nat} (x : Fin n) :
    neighborsF (chainGraph n) x =
      if h : x.1 + 1 < n then [⟨x.1 + 1, h⟩] else [] := by
  unfold neighborsF chainGraph
  rw [List.filter_map]
  by_cases h : x.1 + 1 < n
  · rw [dif_pos h]
    have hx1 : x.1 < n - 1 := by omega
    have hcong : List.filter
        ((fun e : Fin n × Fin n => decide (e.1 = x)) ∘
          (fun i : Fin (n-1) => ((⟨i.1, by omega⟩ : Fin n), (⟨i.1+1, by omega⟩ : Fin n))))
        (List.finRange (n-1))
        = List.filter (fun i : Fin (n-1) => decide (i = ⟨x.1, hx1⟩)) (List.finRange (n-1)) := by
      apply List.filter_congr
      intro i _
      simp [Fin.ext_iff]
    rw [hcong, filter_eq_singleton_of_nodup (List.nodup_finRange (n-1)) _
      (List.mem_finRange _)]
    simp [Fin.ext_iff]
  · rw [dif_neg h]
    rw [List.filter_eq_nil_iff.mpr ?_]
    · simp
    · intro i _
      simp only [Function.comp]
      simp [Fin.ext_iff]
      omega


theorem take_succ_reverse (n k : Nat) (hk : k < n) :
    ((List.finRange n).take (k+1)).reverse = ⟨k, hk⟩ :: ((List.finRange n).take k).reverse := by
  rw [List.take_succ]
  have hget : (List.finRange n)[k]? = some ⟨k, hk⟩ := by
    rw [List.getElem?_eq_getElem (by simp [List.length_finRange]; omega)]
    apply congrArg
    apply Fin.ext
    simp [List.getElem_finRange]
  rw [hget]
  simp

theorem insert_drop_finRange (n k : Nat) (hk : k < n) :
    insert (⟨k, hk⟩ : Fin n) ((List.finRange n).drop (k+1)).toFinset
      = ((List.finRange n).drop k).toFinset := by
  ext x
  simp [List.mem_toFinset, mem_drop_finRange, Fin.ext_iff]
  omega

theorem drop_reverse_snoc (n k : Nat) (hk : k < n) :
    ((List.finRange n).drop (k+1)).reverse ++ [⟨k, hk⟩]
      = ((List.finRange n).drop k).reverse := by
  have h : (List.finRange n).drop k = ⟨k, hk⟩ :: (List.finRange n).drop (k+1) := by
    rw [List.drop_eq_getElem_cons (by simp [List.length_finRange]; omega)]
    congr 1
    apply Fin.ext
    simp [List.getElem_finRange]
  rw [h]
  simp

theorem chain_all_fin (n k : Nat) (hk : k < n) :
    (neighborsF (chainGraph n) ⟨k, hk⟩).all
      (fun t => decide (t ∈ ((List.finRange n).drop (k+1)).toFinset)) = true := by
  rw [neighbors_chain]
  split
  · simp [List.mem_toFinset, mem_drop_finRange]
  · simp

theorem chain_finish_step (n k : Nat) (hk : k < n) (rest fs : List (Fin n)) :
    innerLoop (chainGraph n) (⟨k, hk⟩ :: rest) Finset.univ
      ((List.finRange n).drop (k+1)).toFinset fs
    = innerLoop (chainGraph n) rest Finset.univ
      ((List.finRange n).drop k).toFinset (fs ++ [⟨k, hk⟩]) := by
  rw [innerLoop]
  rw [dif_pos (Finset.mem_univ _)]
  rw [if_neg (by simp [List.mem_toFinset, mem_drop_finRange])]
  rw [if_pos (chain_all_fin n k hk)]
  rw [insert_drop_finRange n k hk]

theorem chain_finish (n : Nat) : ∀ k (hk : k < n),
    innerLoop (chainGraph n) (((List.finRange n).take (k+1)).reverse) Finset.univ
      ((List.finRange n).drop (k+1)).toFinset (((List.finRange n).drop (k+1)).reverse)
    = some (Finset.univ, (List.finRange n).toFinset, (List.finRange n).reverse) := by
  intro k
  induction k with
  | zero =>
    intro hk
    rw [take_succ_reverse n 0 hk]
    simp only [List.take_zero, List.reverse_nil]
    rw [chain_finish_step n 0 hk [] _]
    rw [drop_reverse_snoc n 0 hk]
    rw [innerLoop]
    rw [List.drop_zero]
  | succ k ih =>
    intro hk
    have hkn : k < n := by omega
    rw [take_succ_reverse n (k+1) hk]
    rw [chain_finish_step n (k+1) hk _ _]
    rw [drop_reverse_snoc n (k+1) hk]
    exact ih hkn

theorem chain_discover_step (n m : Nat) (hm : m < n) (rest : List (Fin n)) :
    innerLoop (chainGraph n) (⟨m, hm⟩ :: rest) ((List.finRange n).take m).toFinset ∅ []
    = innerLoop (chainGraph n)
        ((if h : m + 1 < n then [(⟨m+1, h⟩ : Fin n)] else []) ++ ⟨m, hm⟩ :: rest)
        ((List.finRange n).take (m+1)).toFinset ∅ [] := by
  have hins : insert (⟨m, hm⟩ : Fin n) ((List.finRange n).take m).toFinset
      = ((List.finRange n).take (m+1)).toFinset := by
    ext x
    simp [List.mem_toFinset, mem_take_finRange, Fin.ext_iff]
    omega
  rw [innerLoop]
  rw [dif_neg (by simp [List.mem_toFinset, mem_take_finRange])]
  rw [if_neg (by rw [neighbors_chain]; split <;> simp [Fin.ext_iff])]
  rw [neighbors_chain]
  dsimp only
  by_cases h : m + 1 < n
  · rw [dif_pos h]
    rw [List.filter_cons_of_pos (by
      simp [List.mem_toFinset, mem_take_finRange, Fin.ext_iff])]
    rw [List.filter_nil, List.reverse_cons, List.reverse_nil, List.nil_append, hins]
  · rw [dif_neg h]
    rw [List.filter_nil, List.reverse_nil, hins]

theorem chain_discover (n : Nat) : ∀ fuel m (hm : m < n), n - m = fuel + 1 →
    innerLoop (chainGraph n) (((List.finRange n).take (m+1)).reverse)
      ((List.finRange n).take m).toFinset ∅ []
    = some (Finset.univ, (List.finRange n).toFinset, (List.finRange n).reverse) := by
  intro fuel
  induction fuel with
  | zero =>
    intro m hm hfuel
    rw [take_succ_reverse n m hm, chain_discover_step n m hm _]
    rw [dif_neg (by omega), List.nil_append]
    rw [← take_succ_reverse n m hm]
    have htake : ((List.finRange n).take (m+1)).toFinset = Finset.univ := by
      ext x
      simp [List.mem_toFinset, mem_take_finRange]
      omega
    have hdrop : (List.finRange n).drop (m+1) = [] :=
      List.drop_eq_nil_of_le (by simp [List.length_finRange]; omega)
    have := chain_finish n m hm
    rw [hdrop] at this
    simp only [List.toFinset_nil, List.reverse_nil] at this
    rw [htake]
    exact this
  | succ fuel ih =>
    intro m hm hfuel
    have hm1 : m + 1 < n := by omega
    rw [take_succ_reverse n m hm, chain_discover_step n m hm _]
    rw [dif_pos hm1, List.singleton_append]
    rw [← take_succ_reverse n m hm]
    rw [← take_succ_reverse n (m+1) hm1]
    exact ih (m+1) hm1 (by omega)

theorem outerLoop_cons (g : DepGraph) (i : Fin g.n) (ids : List (Fin g.n))
    (disc fin : Finset (Fin g.n)) (fs : List (Fin g.n)) (hi : i ∉ disc) :
    outerLoop g (i :: ids) disc fin fs =
      match innerLoop g [i] disc fin fs with
      | none => none
      | some (d, f, s) => outerLoop g ids d f s := by
  rw [outerLoop, if_neg hi]

theorem outerLoop_skip (g : DepGraph) : ∀ (ids : List (Fin g.n)) disc fin fs,
    (∀ i ∈ ids, i ∈ disc) → outerLoop g ids disc fin fs = some fs := by
  intro ids
  induction ids with
  | nil => intro disc fin fs _; rw [outerLoop]
  | cons i ids ih =>
    intro disc fin fs h
    rw [outerLoop, if_pos (h i (List.mem_cons_self i ids))]
    exact ih disc fin fs (fun j hj => h j (List.mem_cons_of_mem i hj))

theorem toposort_chain (n : Nat) (hn : 0 < n) :
    toposort (chainGraph n) = some (List.finRange n) := by
  unfold toposort
  have htake1 : (List.finRange n).take 1 = [⟨0, hn⟩] := by
    have := take_succ_reverse n 0 hn
    simp only [List.take_zero, List.reverse_nil] at this
    rw [← List.reverse_reverse ((List.finRange n).take 1), this]
    rfl
  have hfr : List.finRange n = ⟨0, hn⟩ :: (List.finRange n).drop 1 := by
    conv_lhs => rw [← List.take_append_drop 1 (List.finRange n)]
    rw [htake1]
    rfl
  have hred : outerLoop (chainGraph n) ((List.finRange n).drop 1) Finset.univ
      (List.finRange n).toFinset (List.finRange n).reverse
      = some ((List.finRange n).reverse) :=
    outerLoop_skip _ _ _ _ _ (fun i _ => Finset.mem_univ i)
  have hfr' : List.finRange (chainGraph n).n = ⟨0, hn⟩ :: (List.finRange n).drop 1 := hfr
  rw [hfr', outerLoop_cons (chainGraph n) _ _ _ _ _ (Finset.not_mem_empty _)]
  have hinner : innerLoop (chainGraph n) [⟨0, hn⟩] ∅ ∅ []
      = some (Finset.univ, (List.finRange n).toFinset, (List.finRange n).reverse) := by
    have := chain_discover n (n - 1) 0 hn (by omega)
    rw [take_succ_reverse n 0 hn] at this
    simpa using this
  rw [hinner]
  simp only [hred, Option.map_some', List.reverse_reverse]

/-! ## Edgeless graphs: the canonical tie-breaking case for the sorter -/

theorem innerLoop_isolated (g : DepGraph) (i : Fin g.n) (disc fin : Finset (Fin g.n))
    (fs : List (Fin g.n)) (hn : neighborsF g i = []) (hd : i ∉ disc) (hf : i ∉ fin) :
    innerLoop g [i] disc fin fs = some (insert i disc, insert i fin, fs ++ [i]) := by
  rw [innerLoop]
  rw [dif_neg hd, if_neg (by simp [hn])]
  rw [hn]
  rw [List.filter_nil, List.reverse_nil, List.nil_append]
  rw [innerLoop]
  rw [dif_pos (Finset.mem_insert_self i disc), if_neg hf, if_pos (by rw [hn]; rfl)]
  rw [innerLoop]

theorem neighbors_edgeless (n : Nat) (x : Fin n) :
    neighborsF (DepGraph.mk n []) x = [] := rfl

theorem outerLoop_edgeless (n : Nat) : ∀ (ids : List (Fin n)) (disc fin : Finset (Fin n))
    (fs : List (Fin n)), ids.Nodup → (∀ i ∈ ids, i ∉ disc) → (∀ i ∈ ids, i ∉ fin) →
    outerLoop (DepGraph.mk n []) ids disc fin fs = some (fs ++ ids) := by
  intro ids
  induction ids with
  | nil =>
    intro disc fin fs _ _ _
    rw [outerLoop, List.append_nil]
  | cons i ids ih =>
    intro disc fin fs hnd hdisc hfin
    have hi : i ∉ disc := hdisc i (List.mem_cons_self i ids)
    rw [outerLoop_cons _ _ _ _ _ _ hi]
    rw [innerLoop_isolated _ i disc fin fs (neighbors_edgeless n i) hi
      (hfin i (List.mem_cons_self i ids))]
    show outerLoop (DepGraph.mk n []) ids (insert i disc) (insert i fin) (fs ++ [i])
      = some (fs ++ i :: ids)
    rw [ih (insert i disc) (insert i fin) (fs ++ [i]) (List.nodup_cons.mp hnd).2
      (fun j hj => by
        simp only [Finset.mem_insert, not_or]
        exact ⟨fun hji => (List.nodup_cons.mp hnd).1 (hji ▸ hj),
          hdisc j (List.mem_cons_of_mem i hj)⟩)
      (fun j hj => by
        simp only [Finset.mem_insert, not_or]
        exact ⟨fun hji => (List.nodup_cons.mp hnd).1 (hji ▸ hj),
          hfin j (List.mem_cons_of_mem i hj)⟩)]
    simp

theorem toposort_edgeless (n : Nat) :
    toposort (DepGraph.mk n []) = some (List.finRange n).reverse := by
  unfold toposort
  rw [outerLoop_edgeless n (List.finRange n) ∅ ∅ [] (List.nodup_finRange n)
    (by simp) (by simp)]
  simp

/-! ## Claims about the reorder stage -/


/-- C1: for every input text whose extracted elements form the linear
appears-before chain built by the graph builder, the topological sorter
succeeds and its output sequence of element identities equals the original
extraction order (provided at least one element is extracted, so that the
reorder stage reaches the sorter at all; the zero-element case panics
before sorting, see C8). -/
theorem claim_C1_chain_sort_is_extraction_order (code : List Char)
    (h : extractIdxs code ≠ []) :
    toposort (chainGraph (extractIdxs code).length)
      = some (List.finRange (extractIdxs code).length) ∧
    reorder_elements code
      = some (Except.ok (((extractIdxs code).map (funcBlock code)).flatten)) := by
  have hn : 0 < (extractIdxs code).length := List.length_pos.mpr h
  have ht := toposort_chain (extractIdxs code).length hn
  refine ⟨ht, ?_⟩
  unfold reorder_elements
  simp only [if_neg (by omega : ¬(extractIdxs code).length = 0), ht]
  have hmap : (List.finRange (extractIdxs code).length).map
      (fun i => funcBlock code ((extractIdxs code).get i))
      = (extractIdxs code).map (funcBlock code) := by
    conv_rhs => rw [← List.finRange_map_get (extractIdxs code)]
    rw [List.map_map]
    rfl
  rw [hmap]

theorem claim_C1_witness :
    extractIdxs "int f() \x7b\nint g() \x7b\n".toList ≠ [] ∧
    (toposort (chainGraph (extractIdxs "int f() \x7b\nint g() \x7b\n".toList).length)
      = some (List.finRange (extractIdxs "int f() \x7b\nint g() \x7b\n".toList).length) ∧
    reorder_elements "int f() \x7b\nint g() \x7b\n".toList
      = some (Except.ok (((extractIdxs "int f() \x7b\nint g() \x7b\n".toList).map
          (funcBlock "int f() \x7b\nint g() \x7b\n".toList)).flatten))) :=
  ⟨by decide, claim_C1_chain_sort_is_extraction_order _ (by decide)⟩

/-- C8: on input with zero extracted elements the reorder stage panics
(`functions.len() - 1` underflows in the edge loop); its embedding returns
neither a success nor an error value. -/
theorem claim_C8_empty_extraction_panics (code : List Char)
    (h : extractIdxs code = []) : reorder_elements code = none := by
  unfold reorder_elements
  simp only [h]
  rfl

theorem claim_C8_witness :
    extractIdxs "no functions here\n".toList = [] ∧
    reorder_elements "no functions here\n".toList = none :=
  ⟨by decide, claim_C8_empty_extraction_panics _ (by decide)⟩

/-- C9: the graph the pipeline builds is always the linear chain, which is
acyclic: whenever at least one element is extracted the sorter succeeds, so
the `CycleDetected` failure branch of `reorder_elements` is unreachable. -/
theorem claim_C9_cycle_branch_unreachable (code : List Char)
    (h : extractIdxs code ≠ []) :
    (∃ ord, toposort (chainGraph (extractIdxs code).length) = some ord) ∧
    ∀ msg, reorder_elements code ≠ some (Except.error msg) := by
  have hn : 0 < (extractIdxs code).length := List.length_pos.mpr h
  have ht := toposort_chain (extractIdxs code).length hn
  refine ⟨⟨_, ht⟩, fun msg => ?_⟩
  unfold reorder_elements
  simp only [if_neg (by omega : ¬(extractIdxs code).length = 0), ht]
  simp

theorem claim_C9_witness :
    extractIdxs "int f() \x7b\n".toList ≠ [] ∧
    ((∃ ord, toposort (chainGraph (extractIdxs "int f() \x7b\n".toList).length)
        = some ord) ∧
      ∀ msg, reorder_elements "int f() \x7b\n".toList ≠ some (Except.error msg)) :=
  ⟨by decide, claim_C9_cycle_branch_unreachable _ (by decide)⟩

/-! ## Claims about the topological sorter in isolation -/


theorem outerLoop_inv (g : DepGraph) :
    ∀ (ids : List (Fin g.n)) (disc fin : Finset (Fin g.n)) (fs s : List (Fin g.n)),
    outerLoop g ids disc fin fs = some s →
    Inv g [] disc fin fs →
    s.Nodup ∧ FsOk g s ∧ (∀ i ∈ ids, i ∈ s) ∧ (∀ x ∈ disc, x ∈ s) := by
  intro ids
  induction ids with
  | nil =>
    intro disc fin fs s heq hinv
    rw [outerLoop] at heq
    injection heq with heq
    subst heq
    obtain ⟨ha, hb, hc, hfs⟩ := hinv
    refine ⟨hc, hfs, by simp, fun x hx => ?_⟩
    rcases ha x hx with hf | hemp
    · exact (hb x).mp hf
    · exact absurd hemp (List.not_mem_nil x)
  | cons i ids ih =>
    intro disc fin fs s heq hinv
    rw [outerLoop] at heq
    by_cases hi : i ∈ disc
    · rw [if_pos hi] at heq
      obtain ⟨h1, h2, h3, h4⟩ := ih disc fin fs s heq hinv
      exact ⟨h1, h2, fun j hj =>
        (List.mem_cons.mp hj).elim (fun hji => hji ▸ h4 i hi) (h3 j), h4⟩
    · rw [if_neg hi] at heq
      cases hil : innerLoop g [i] disc fin fs with
      | none => rw [hil] at heq; exact absurd heq (by simp)
      | some t =>
        obtain ⟨d, f, s0⟩ := t
        rw [hil] at heq
        simp only [] at heq
        have hinv1 : Inv g [i] disc fin fs := by
          obtain ⟨ha, hb, hc, hfs⟩ := hinv
          exact ⟨fun x hx => (ha x hx).elim Or.inl
            (fun h => absurd h (List.not_mem_nil x)), hb, hc, hfs⟩
        obtain ⟨hi0, hdisc, hstk⟩ := innerLoop_inv g [i] disc fin fs d f s0 hil hinv1
        obtain ⟨h1, h2, h3, h4⟩ := ih d f s0 s heq hi0
        refine ⟨h1, h2, fun j hj => ?_, fun x hx => h4 x (hdisc x hx)⟩
        rcases List.mem_cons.mp hj with rfl | hjs
        · exact h4 j (hstk j (List.mem_singleton_self j))
        · exact h3 j hjs

theorem fsOk_before (g : DepGraph) {s : List (Fin g.n)} (h : FsOk g s) :
    ∀ a ∈ s, ∀ b ∈ neighborsF g a, ∃ l1 l2 l3, s = l1 ++ b :: l2 ++ a :: l3 := by
  induction h with
  | nil => intro a ha; exact absurd ha (List.not_mem_nil a)
  | snoc hok hsucc ih =>
    rename_i l y
    intro a ha b hb
    rcases List.mem_append.mp ha with hal | hay
    · obtain ⟨l1, l2, l3, rfl⟩ := ih a hal b hb
      exact ⟨l1, l2, l3 ++ [y], by simp⟩
    · simp only [List.mem_singleton] at hay
      subst hay
      obtain ⟨p, q, rfl⟩ := List.append_of_mem (hsucc b hb)
      exact ⟨p, q, [], by simp⟩


/-- C2: for every `DependencyGraph` and every edge `(a, b)`, the topological
sorter either fails with the cycle condition (`none`, mapped by the caller
to `CycleDetected`) or returns an ordering of all nodes in which `a` occurs
strictly before `b`; it never returns an ordering violating an edge. -/
theorem claim_C2_toposort_respects_edges (g : DepGraph) (order : List (Fin g.n))
    (h : toposort g = some order) :
    order.Perm (List.finRange g.n) ∧
    ∀ e ∈ g.edges, ∃ l1 l2 l3, order = l1 ++ e.1 :: l2 ++ e.2 :: l3 := by
  unfold toposort at h
  cases ho : outerLoop g (List.finRange g.n) ∅ ∅ [] with
  | none => rw [ho] at h; exact absurd h (by simp)
  | some s =>
    rw [ho] at h
    simp only [Option.map_some', Option.some.injEq] at h
    subst h
    have hinv : Inv g [] ∅ ∅ [] := ⟨by simp, by simp, List.nodup_nil, FsOk.nil⟩
    obtain ⟨hnd, hok, hall, _⟩ := outerLoop_inv g (List.finRange g.n) ∅ ∅ [] s ho hinv
    constructor
    · have hsub1 : s ⊆ List.finRange g.n := fun x _ => List.mem_finRange x
      have hsub2 : List.finRange g.n ⊆ s := fun x hx => hall x hx
      have hp : s.Perm (List.finRange g.n) :=
        (hnd.subperm hsub1).antisymm ((List.nodup_finRange g.n).subperm hsub2)
      exact s.reverse_perm.trans hp
    · intro e he
      have hmem : e.2 ∈ neighborsF g e.1 := by
        unfold neighborsF
        rw [List.mem_reverse]
        exact List.mem_map.mpr ⟨e, List.mem_filter.mpr ⟨he, by simp⟩, rfl⟩
      obtain ⟨l1, l2, l3, hs⟩ :=
        fsOk_before g hok e.1 (hall e.1 (List.mem_finRange e.1)) e.2 hmem
      exact ⟨l3.reverse, l2.reverse, l1.reverse, by rw [hs]; simp⟩

theorem claim_C2_witness :
    (List.finRange (chainGraph 2).n).Perm (List.finRange (chainGraph 2).n) ∧
    ∀ e ∈ (chainGraph 2).edges,
      ∃ l1 l2 l3, List.finRange (chainGraph 2).n = l1 ++ e.1 :: l2 ++ e.2 :: l3 :=
  claim_C2_toposort_respects_edges (chainGraph 2) (List.finRange (chainGraph 2).n)
    (toposort_chain 2 (by decide))

/-- C3 counterexample: an acyclic two-node graph with no edges admits both
orders; ascending extraction order would be `[0, 1]`, but the sorter
returns `[1, 0]`. -/
theorem claim_C3_counterexample :
    toposort (DepGraph.mk 2 []) = some [1, 0] ∧
    ([1, 0] : List (Fin 2)) ≠ [0, 1] := by
  constructor
  · rw [toposort_edgeless 2]
    decide
  · decide

/-- C3 amended: the sorter is a pure function of the graph (hence
deterministic across runs), but ties are broken by the reverse
DFS-finishing order, not ascending extraction order: on a graph with `n`
nodes and no edges the output is extraction order reversed. -/
theorem claim_C3_amended_ties_descending (n : Nat) :
    toposort (DepGraph.mk n []) = some (List.finRange n).reverse :=
  toposort_edgeless n

/-! ## Per-line splicing of the text stages -/


theorem cleanLines_split {pre post : List (List Char)} {l : List Char}
    (h : CleanLines (pre ++ l :: post)) :
    CleanLines pre ∧ ('\n' ∉ l ∧ l.getLast? ≠ some '\r') ∧ CleanLines post :=
  ⟨fun x hx => h x (by simp [hx]), h l (by simp),
   fun x hx => h x (by simp [hx])⟩

theorem handle_macros_split (pre post : List (List Char)) (l : List Char)
    (hc : CleanLines (pre ++ l :: post)) :
    handle_macros (unlines (pre ++ l :: post))
      = handle_macros (unlines pre) ++ macroLine l ++ handle_macros (unlines post) := by
  obtain ⟨h1, _, h3⟩ := cleanLines_split hc
  unfold handle_macros
  rw [rustLines_unlines hc, rustLines_unlines h1, rustLines_unlines h3]
  simp

theorem inline_includes_split (fsys : List Char → Option (List Char))
    (pre post : List (List Char)) (l : List Char)
    (hc : CleanLines (pre ++ l :: post)) :
    (inline_includes fsys (unlines (pre ++ l :: post))).1
      = (inline_includes fsys (unlines pre)).1 ++ incLine fsys l
        ++ (inline_includes fsys (unlines post)).1 ∧
    (inline_includes fsys (unlines (pre ++ l :: post))).2
      = (inline_includes fsys (unlines pre)).2 ++ (incWarn fsys l).toList
        ++ (inline_includes fsys (unlines post)).2 := by
  obtain ⟨h1, _, h3⟩ := cleanLines_split hc
  unfold inline_includes
  rw [rustLines_unlines hc, rustLines_unlines h1, rustLines_unlines h3]
  constructor
  · simp
  · simp only [List.filterMap_append]
    cases hw : incWarn fsys l <;> simp [List.filterMap_cons, hw]

/-! ## Claims about the macro transformer -/


/-- C4: on a line matching `#define <name>` with no value the transformer
emits the conditional-compilation marker `#[cfg(<name>)]`; with a value it
emits `const <name>: &str = "<value>";` binding the value as an opaque
string; non-matching lines pass through unchanged (stated over texts made
of newline-terminated lines, the shape every stage of the pipeline
produces). -/
theorem claim_C4_macro_rewrites (pre post : List (List Char)) (l : List Char)
    (hc : CleanLines (pre ++ l :: post)) :
    (∀ name, macroCapture l = some (name, []) →
      handle_macros (unlines (pre ++ l :: post))
        = handle_macros (unlines pre)
          ++ ("#[cfg(".toList ++ name ++ ")]\n".toList)
          ++ handle_macros (unlines post)) ∧
    (∀ name value, value ≠ [] → macroCapture l = some (name, value) →
      handle_macros (unlines (pre ++ l :: post))
        = handle_macros (unlines pre)
          ++ ("const ".toList ++ name ++ ": &str = \"".toList ++ value ++ "\";\n".toList)
          ++ handle_macros (unlines post)) ∧
    (macroCapture l = none →
      handle_macros (unlines (pre ++ l :: post))
        = handle_macros (unlines pre) ++ (l ++ ['\n'])
          ++ handle_macros (unlines post)) := by
  refine ⟨fun name hm => ?_, fun name value hv hm => ?_, fun hm => ?_⟩ <;>
    rw [handle_macros_split pre post l hc]
  · unfold macroLine
    rw [hm]
    rfl
  · unfold macroLine
    rw [hm]
    dsimp only
    rw [if_neg (by simpa using hv)]
  · unfold macroLine
    rw [hm]

theorem claim_C4_witness :
    CleanLines ([] ++ "#define DEBUG".toList :: []) ∧
    handle_macros (unlines ([] ++ "#define DEBUG".toList :: []))
      = handle_macros (unlines [])
        ++ ("#[cfg(".toList ++ "DEBUG".toList ++ ")]\n".toList)
        ++ handle_macros (unlines []) :=
  ⟨by intro l hl; simp only [List.nil_append, List.mem_singleton] at hl; subst hl; exact ⟨by decide, by decide⟩,
   (claim_C4_macro_rewrites [] [] _
     (by intro l hl; simp only [List.nil_append, List.mem_singleton] at hl; subst hl
         exact ⟨by decide, by decide⟩)).1 "DEBUG".toList (by decide)⟩

/-- C7 counterexample: a text with no `#define` line and no trailing
newline is changed by the transformer, which appends a newline. -/
theorem claim_C7_counterexample :
    (∀ l ∈ rustLines "abc".toList, macroCapture l = none) ∧
    handle_macros "abc".toList ≠ "abc".toList := by
  constructor
  · decide
  · decide

/-- C7 amended: on texts made of newline-terminated lines without carriage
returns before the newlines, if no line matches the `#define` pattern the
transformer returns the text unchanged (as stated the claim fails on text
lacking the final newline, where a newline is appended). -/
theorem claim_C7_amended_idempotent_on_clean (ls : List (List Char))
    (hc : CleanLines ls) (h : ∀ l ∈ ls, macroCapture l = none) :
    handle_macros (unlines ls) = unlines ls := by
  have hr : rustLines (unlines ls) = ls := rustLines_unlines hc
  unfold handle_macros
  rw [hr]
  unfold unlines
  congr 1
  apply List.map_congr_left
  intro a ha
  unfold macroLine
  rw [h a ha]

theorem claim_C7_amended_witness :
    CleanLines ["ab".toList] ∧ (∀ l ∈ ["ab".toList], macroCapture l = none) ∧
    handle_macros (unlines ["ab".toList]) = unlines ["ab".toList] :=
  ⟨by intro l hl; simp only [List.nil_append, List.mem_singleton] at hl; subst hl; exact ⟨by decide, by decide⟩,
   by decide,
   claim_C7_amended_idempotent_on_clean ["ab".toList]
     (by intro l hl; simp only [List.nil_append, List.mem_singleton] at hl; subst hl
         exact ⟨by decide, by decide⟩)
     (by decide)⟩

/-! ## Claims about the include inliner -/


/-- C6: a line matching the quoted-include pattern whose referenced file is
readable is replaced by that file's full content verbatim; every
non-matching line passes through unchanged, with its `'\n'` line break
(stated over texts made of newline-terminated lines). -/
theorem claim_C6_include_substitution (fsys : List Char → Option (List Char))
    (pre post : List (List Char)) (l : List Char)
    (hc : CleanLines (pre ++ l :: post)) :
    (∀ name content, includeCapture l = some name → fsys name = some content →
      (inline_includes fsys (unlines (pre ++ l :: post))).1
        = (inline_includes fsys (unlines pre)).1 ++ content
          ++ (inline_includes fsys (unlines post)).1) ∧
    (includeCapture l = none →
      (inline_includes fsys (unlines (pre ++ l :: post))).1
        = (inline_includes fsys (unlines pre)).1 ++ (l ++ ['\n'])
          ++ (inline_includes fsys (unlines post)).1) := by
  refine ⟨fun name content hcap hread => ?_, fun hcap => ?_⟩ <;>
    rw [(inline_includes_split fsys pre post l hc).1]
  · unfold incLine
    rw [hcap]
    dsimp only
    rw [hread]
  · unfold incLine
    rw [hcap]

theorem claim_C6_witness :
    includeCapture "#include \"a.h\"".toList = some "a.h".toList ∧
    (inline_includes (fun n => if n = "a.h".toList then some "T".toList else none)
        (unlines ([] ++ "#include \"a.h\"".toList :: ["x;".toList]))).1
      = (inline_includes (fun n => if n = "a.h".toList then some "T".toList else none)
          (unlines [])).1 ++ "T".toList
        ++ (inline_includes (fun n => if n = "a.h".toList then some "T".toList else none)
            (unlines ["x;".toList])).1 :=
  ⟨by decide,
   (claim_C6_include_substitution _ [] ["x;".toList] _
     (by intro l hl
         simp only [List.nil_append, List.mem_cons, List.not_mem_nil, or_false] at hl
         rcases hl with rfl | rfl
         · exact ⟨by decide, by decide⟩
         · exact ⟨by decide, by decide⟩)).1
     "a.h".toList "T".toList (by decide) (by decide)⟩

/-- C5: an include line whose referenced file cannot be read contributes
neither the line nor any substituted content to the output; the missing
file's name is surfaced on the warning stream; the stage is total, so
processing continues to completion. -/
theorem claim_C5_missing_include_dropped (fsys : List Char → Option (List Char))
    (pre post : List (List Char)) (l : List Char)
    (hc : CleanLines (pre ++ l :: post))
    (name : List Char) (hcap : includeCapture l = some name)
    (hmiss : fsys name = none) :
    (inline_includes fsys (unlines (pre ++ l :: post))).1
      = (inline_includes fsys (unlines pre)).1
        ++ (inline_includes fsys (unlines post)).1 ∧
    (inline_includes fsys (unlines (pre ++ l :: post))).2
      = (inline_includes fsys (unlines pre)).2 ++ name ::
        (inline_includes fsys (unlines post)).2 := by
  obtain ⟨h1, h2⟩ := inline_includes_split fsys pre post l hc
  constructor
  · rw [h1]
    unfold incLine
    rw [hcap]
    dsimp only
    rw [hmiss]
    simp
  · rw [h2]
    unfold incWarn
    rw [hcap]
    dsimp only
    rw [hmiss]
    simp

theorem claim_C5_witness :
    includeCapture "#include \"gone.h\"".toList = some "gone.h".toList ∧
    ((inline_includes (fun _ => none)
        (unlines ([] ++ "#include \"gone.h\"".toList :: ["y;".toList]))).1
      = (inline_includes (fun _ => none) (unlines [])).1
        ++ (inline_includes (fun _ => none) (unlines ["y;".toList])).1 ∧
    (inline_includes (fun _ => none)
        (unlines ([] ++ "#include \"gone.h\"".toList :: ["y;".toList]))).2
      = (inline_includes (fun _ => none) (unlines [])).2 ++ "gone.h".toList ::
        (inline_includes (fun _ => none) (unlines ["y;".toList])).2) :=
  ⟨by decide,
   claim_C5_missing_include_dropped (fun _ => none) [] ["y;".toList] _
     (by intro l hl
         simp only [List.nil_append, List.mem_cons, List.not_mem_nil, or_false] at hl
         rcases hl with rfl | rfl
         · exact ⟨by decide, by decide⟩
         · exact ⟨by decide, by decide⟩)
     "gone.h".toList (by decide) rfl⟩

/-! ## Claim C10: unanchored macro matching -/


theorem word_not_space {c : Char} (h : isWordChar c = true) : isSpaceChar c = false := by
  by_contra hs
  rw [Bool.not_eq_false] at hs
  unfold isSpaceChar at hs
  simp only [Bool.or_eq_true, beq_iff_eq] at hs
  rcases hs with ((((h1 | h2) | h3) | h4) | h5) | h6 <;> subst_vars <;>
    exact absurd h (by decide)

theorem dropLit_self : ∀ (p s : List Char), dropLit p (p ++ s) = some s := by
  intro p
  induction p with
  | nil => intro s; rfl
  | cons c p ih =>
    intro s
    rw [List.cons_append, dropLit, if_pos rfl]
    exact ih s

theorem takeWhile_append_all {p : Char → Bool} :
    ∀ {xs : List Char} (ys : List Char), (∀ x ∈ xs, p x = true) →
    (xs ++ ys).takeWhile p = xs ++ ys.takeWhile p := by
  intro xs
  induction xs with
  | nil => intro ys _; rfl
  | cons c xs ih =>
    intro ys h
    rw [List.cons_append, List.takeWhile_cons_of_pos (h c (List.mem_cons_self c xs)),
      ih ys (fun x hx => h x (List.mem_cons_of_mem c hx)), List.cons_append]

theorem dropWhile_append_all {p : Char → Bool} :
    ∀ {xs : List Char} (ys : List Char), (∀ x ∈ xs, p x = true) →
    (xs ++ ys).dropWhile p = ys.dropWhile p := by
  intro xs
  induction xs with
  | nil => intro ys _; rfl
  | cons c xs ih =>
    intro ys h
    rw [List.cons_append, List.dropWhile_cons_of_pos (h c (List.mem_cons_self c xs)),
      ih ys (fun x hx => h x (List.mem_cons_of_mem c hx))]

theorem macroMatchAt_define (name value : List Char) (hn : name ≠ [])
    (hw : ∀ c ∈ name, isWordChar c = true)
    (hv : ∀ c ∈ value.take 1, isSpaceChar c = false) :
    macroMatchAt ("#define ".toList ++ name ++ [' '] ++ value) = some (name, value) := by
  have hsplit : "#define ".toList ++ name ++ [' '] ++ value
      = "#define".toList ++ (' ' :: (name ++ ' ' :: value)) := by
    simp [List.append_assoc]
  have h2 : ((' ' :: (name ++ ' ' :: value)).takeWhile isSpaceChar).isEmpty = false := by
    rw [List.takeWhile_cons_of_pos (by decide)]
    rfl
  have h3 : (' ' :: (name ++ ' ' :: value)).dropWhile isSpaceChar = name ++ ' ' :: value := by
    rw [List.dropWhile_cons_of_pos (by decide)]
    cases name with
    | nil => exact absurd rfl hn
    | cons c name' =>
      rw [List.cons_append, List.dropWhile_cons_of_neg (by
        simp [word_not_space (hw c (List.mem_cons_self c name'))])]
  have h4 : (name ++ ' ' :: value).takeWhile isWordChar = name := by
    rw [takeWhile_append_all _ hw, List.takeWhile_cons_of_neg (by decide), List.append_nil]
  have h5 : (name ++ ' ' :: value).dropWhile isWordChar = ' ' :: value := by
    rw [dropWhile_append_all _ hw, List.dropWhile_cons_of_neg (by decide)]
  have h6 : (' ' :: value).dropWhile isSpaceChar = value := by
    rw [List.dropWhile_cons_of_pos (by decide)]
    cases value with
    | nil => rfl
    | cons v vs =>
      rw [List.dropWhile_cons_of_neg (by simp [hv v (by simp)])]
  have h7 : name.isEmpty = false := by
    cases name with
    | nil => exact absurd rfl hn
    | cons c name' => rfl
  unfold macroMatchAt
  rw [hsplit, dropLit_self]
  dsimp only
  rw [h2, h3, h4, h5, h6, h7]
  simp

theorem matchAt_not_hash {s : List Char} {c : Char} (hc : c ≠ '#') :
    macroMatchAt (c :: s) = none := by
  unfold macroMatchAt
  have hd : dropLit "#define".toList (c :: s) = none := by
    rw [show ("#define".toList : List Char) = '#' :: "define".toList from rfl]
    rw [dropLit, if_neg hc]
  rw [hd]

theorem macroCapture_append_skip (junk rest : List Char) (hj : ∀ c ∈ junk, c ≠ '#') :
    macroCapture (junk ++ rest) = macroCapture rest := by
  induction junk with
  | nil => rfl
  | cons c junk ih =>
    rw [List.cons_append, macroCapture,
      matchAt_not_hash (hj c (List.mem_cons_self c junk))]
    exact ih (fun x hx => hj x (List.mem_cons_of_mem c hx))

theorem macroCapture_cons_of_matchAt {c : Char} {cs : List Char}
    {nv : List Char × List Char} (h : macroMatchAt (c :: cs) = some nv) :
    macroCapture (c :: cs) = some nv := by
  rw [macroCapture, h]

/-- C10: the macro pattern is found by unanchored search: a line that
merely contains `#define <name> <value>` after arbitrary non-`#` leading
text is rewritten, and the leading text is discarded from the output. -/
theorem claim_C10_unanchored_match_discards_rest (junk name value : List Char)
    (hj : ∀ c ∈ junk, c ≠ '#') (hn : name ≠ [])
    (hw : ∀ c ∈ name, isWordChar c = true)
    (hv : ∀ c ∈ value.take 1, isSpaceChar c = false) :
    macroCapture (junk ++ "#define ".toList ++ name ++ [' '] ++ value)
      = some (name, value) ∧
    macroLine (junk ++ "#define ".toList ++ name ++ [' '] ++ value)
      = if value.isEmpty then "#[cfg(".toList ++ name ++ ")]\n".toList
        else "const ".toList ++ name ++ ": &str = \"".toList ++ value ++ "\";\n".toList := by
  have hline : junk ++ "#define ".toList ++ name ++ [' '] ++ value
      = junk ++ ("#define ".toList ++ name ++ [' '] ++ value) := by
    simp [List.append_assoc]
  have hcap : macroCapture (junk ++ "#define ".toList ++ name ++ [' '] ++ value)
      = some (name, value) := by
    rw [hline, macroCapture_append_skip _ _ hj]
    exact macroCapture_cons_of_matchAt (macroMatchAt_define name value hn hw hv)
  refine ⟨hcap, ?_⟩
  unfold macroLine
  rw [hcap]

theorem claim_C10_witness :
    macroCapture ("int x; ".toList ++ "#define ".toList ++ "FLAG".toList
        ++ [' '] ++ "1".toList)
      = some ("FLAG".toList, "1".toList) ∧
    macroLine ("int x; ".toList ++ "#define ".toList ++ "FLAG".toList
        ++ [' '] ++ "1".toList)
      = if ("1".toList : List Char).isEmpty then
          "#[cfg(".toList ++ "FLAG".toList ++ ")]\n".toList
        else "const ".toList ++ "FLAG".toList ++ ": &str = \"".toList
          ++ "1".toList ++ "\";\n".toList :=
  claim_C10_unanchored_match_discards_rest "int x; ".toList "FLAG".toList "1".toList
    (by decide) (by decide) (by decide) (by decide)

end Preprocessor
